import Mathlib

/-!
Shallow embedding of the `pvl` repository (files `src/pvl/grammar.py` and
`src/pvl/lexer.py`).  Strings of the Python source are modelled as `List Char`,
Python `None` as `Option.none`, and exceptions as `Except`.  The repository's
`token.py` module is not part of the sources; the token operations the lexer
uses are modelled from the spec (see `is_numeric` below).
-/

namespace grammar

/-- Spacing characters of the base PVL grammar (`grammar.spacing_characters`). -/
def spacing_characters : List Char := [' ', '\t']

/-- Format effectors of the base PVL grammar (`grammar.format_effectors`):
line feed, carriage return, vertical tab (11) and form feed (12). -/
def format_effectors : List Char := ['\n', '\r', Char.ofNat 11, Char.ofNat 12]

/-- White space of the base PVL grammar
(`grammar.whitespace = spacing_characters + format_effectors`). -/
def whitespace : List Char := spacing_characters ++ format_effectors

/-- Reserved characters of the base PVL grammar (`grammar.reserved_characters`).
The fourth entry is the single quote (code 39), and codes 123/125 are the
curly braces. -/
def reserved_characters : List Char :=
  ['&', '<', '>', Char.ofNat 39, Char.ofNat 123, Char.ofNat 125, ',',
   '[', ']', '=', '!', '#', '(', ')',
   '%', '+', '\"', ';', '~', '|']

/-- Comment delimiter pairs of the base PVL grammar (`grammar.comments`). -/
def comments : List (List Char × List Char) := [("/*".toList, "*/".toList)]

/-- Decimal digit test, the regex character class `[0-9]`. -/
def isDecDigit (c : Char) : Bool := '0' ≤ c && c ≤ '9'

/-- Digit class of the fragment `[01]` in `grammar.binary_re`. -/
def isBinDigit (c : Char) : Bool := c == '0' || c == '1'

/-- Digit class of the fragment `[0-7]` in `grammar.octal_re`. -/
def isOctDigit (c : Char) : Bool := '0' ≤ c && c ≤ '7'

/-- Character class `[0-9|A-F|a-f]` of `grammar.hex_re`.  Inside a regex
character class the bar is an ordinary character, so the class written in the
source contains the bar in addition to the hexadecimal digits. -/
def isHexClassChar (c : Char) : Bool :=
  isDecDigit c || c == '|' || ('A' ≤ c && c ≤ 'F') || ('a' ≤ c && c ≤ 'f')

/-- Strip the optional leading sign matched by the fragment `[+-]?` of
`grammar._s`. -/
def dropSign : List Char → List Char
  | [] => []
  | c :: cs => if c == '+' || c == '-' then cs else c :: cs

/-- Full-match language of an anchored pattern `[+-]?RADIX#CLASS+#`, the shape
shared by `grammar.binary_re`, `grammar.octal_re` and `grammar.hex_re`:
an optional sign, the radix literal, an octothorpe, one or more characters of
the digit class, and a closing octothorpe. -/
def radix_fullmatch (radix : List Char) (isDig : Char → Bool) (s : List Char) : Bool :=
  let r := dropSign s
  if radix.isPrefixOf r then
    match r.drop radix.length with
    | [] => false
    | x :: t =>
      if x == '#' then
        let d := t.takeWhile isDig
        let rest := t.dropWhile isDig
        !d.isEmpty && rest == ['#']
      else false
  else false

/-- Language of the compiled pattern `grammar.binary_re`, i.e.
`[+-]?2#[01]+#` matched against the whole string. -/
def binary_re (s : List Char) : Bool := radix_fullmatch ['2'] isBinDigit s

/-- Language of the compiled pattern `grammar.octal_re`, i.e.
`[+-]?8#[0-7]+#` matched against the whole string. -/
def octal_re (s : List Char) : Bool := radix_fullmatch ['8'] isOctDigit s

/-- Language of the compiled pattern `grammar.hex_re`, i.e.
`[+-]?16#[0-9|A-F|a-f]+#` matched against the whole string. -/
def hex_re (s : List Char) : Bool := radix_fullmatch ("16".toList) isHexClassChar s

/-- Embedding of `grammar.char_allowed`: the PVL character set, most of
Latin-1 with the listed exclusions.  The Python code raises for inputs that
are not a single character; taking a `Char` argument makes that precondition
structural. -/
def char_allowed (c : Char) : Bool :=
  if c.toNat > 255 ∨ (0 ≤ c.toNat ∧ c.toNat ≤ 8) ∨ c.toNat = 11 ∨
     (14 ≤ c.toNat ∧ c.toNat ≤ 31) ∨ (127 ≤ c.toNat ∧ c.toNat ≤ 159)
  then false else true

end grammar

namespace ODLgrammar

/-- Embedding of `ODLgrammar.char_allowed`: `char.encode('ascii')` succeeds
exactly for code points up to 127, so the ODL character set is plain ASCII. -/
def char_allowed (c : Char) : Bool := decide (c.toNat ≤ 127)

end ODLgrammar

/-- Dialect configuration consumed by the lexer: the fields of the Python
`grammar` class that `lexer.py` reads, plus the non-decimal number languages
used by the modelled token classification. -/
structure Grammar where
  whitespace : List Char
  reserved_characters : List Char
  comments : List (List Char × List Char)
  nondecimal_langs : List (List Char → Bool)

/-- The base PVL grammar instance (`grammar()` in the source). -/
def base_grammar : Grammar :=
  { whitespace := grammar.whitespace
    reserved_characters := grammar.reserved_characters
    comments := grammar.comments
    nondecimal_langs := [grammar.binary_re, grammar.octal_re, grammar.hex_re] }

/-- Modelled from the spec: the repository's `token.py` (class `token`) is not
among the sources.  Per spec sections 3 and 4.2 a token compares equal to its
lexeme string and `is_numeric` recognizes optionally signed decimal integers
and decimal floats (optional leading sign, digits, optional fractional part,
optional exponent); this is the decimal part of that classification. -/
def is_signed_decimal (s : List Char) : Bool :=
  let r := grammar.dropSign s
  let d1 := r.takeWhile grammar.isDecDigit
  let r1 := r.dropWhile grammar.isDecDigit
  if d1.isEmpty then false
  else
    let r2 : List Char :=
      match r1 with
      | [] => []
      | x :: t => if x == '.' then t.dropWhile grammar.isDecDigit else x :: t
    match r2 with
    | [] => true
    | e :: t =>
      if e == 'e' || e == 'E' then
        let t2 := grammar.dropSign t
        !(t2.takeWhile grammar.isDecDigit).isEmpty &&
          (t2.dropWhile grammar.isDecDigit).isEmpty
      else false

/-- Modelled from the spec: `token.is_numeric()` of the absent `token.py`.
Per spec section 4.2 it recognizes optionally signed decimal integers, decimal
floats, and the dialect's non-decimal radix forms through the grammar's
precompiled patterns; it is total (a non-match returns `false`), in particular
on two-character lookahead strings. -/
def is_numeric (g : Grammar) (s : List Char) : Bool :=
  is_signed_decimal s || g.nondecimal_langs.any (fun f => f s)

/-- Error raised by `lex_multichar_comments`: `ValueError` for an empty
comments table, `NotImplementedError` for an unsupported multi-character
comment pair. -/
inductive LexErr where
  | emptyComments
  | notImplemented
deriving DecidableEq, Repr

/-- Embedding of `lexer._prev_char`. -/
def prev_char (s : List Char) (idx : Nat) : Option Char :=
  if idx = 0 then none else s.get? (idx - 1)

/-- Embedding of `lexer._next_char`. -/
def next_char (s : List Char) (idx : Nat) : Option Char := s.get? (idx + 1)

/-- Result of `lexer._prepare_comment_tuples`: the single-character comment
dictionary, the characters of multi-character comment pairs, and the union of
comment-relevant characters. -/
structure CInfo where
  single_comments : List (Char × List Char)
  multi_chars : List Char
  chars : List Char
deriving Repr

/-- Embedding of `lexer._prepare_comment_tuples`.  Pairs whose opening
delimiter is a single character populate the dictionary (later pairs
overwrite earlier ones, as for a Python dict); every character of any other
pair joins `multi_chars`. -/
def prepare_comment_tuples (comments : List (List Char × List Char)) : CInfo :=
  let singles := comments.foldl
    (fun acc p => match p.1 with | [c] => acc ++ [(c, p.2)] | _ => acc) []
  let multis := comments.foldl
    (fun acc p => match p.1 with | [_] => acc | _ => acc ++ p.1 ++ p.2) []
  { single_comments := singles
    multi_chars := multis
    chars := singles.map Prod.fst ++ multis }

/-- Embedding of `lexer.lex_singlechar_comments`.  Python compares the
one-character string `char` with `end_comment` (which may be `None`); here
that is `end_comment == some [char]`.  The dictionary lookup searches the
reversed association list so that later insertions win, as for a dict. -/
def lex_singlechar_comments (char : Char) (lexeme : List Char)
    (in_comment : Bool) (end_comment : Option (List Char))
    (single : List (Char × List Char)) :
    List Char × Bool × Option (List Char) :=
  if in_comment then
    if end_comment == some [char] then (lexeme ++ [char], false, none)
    else (lexeme ++ [char], in_comment, end_comment)
  else
    match List.lookup char single.reverse with
    | some close => (lexeme ++ [char], true, some close)
    | none => (lexeme, in_comment, end_comment)

/-- The `allowed_pairs` tuple of `lexer.lex_multichar_comments`. -/
def allowed_pairs : List (List Char × List Char) := [("/*".toList, "*/".toList)]

/-- Embedding of `lexer.lex_multichar_comments`.  The empty-table check and
the allowed-pairs check sit at the top of the function body, so they run on
every call, i.e. whenever the lexer meets a character of a multi-character
comment delimiter. -/
def lex_multichar_comments (char : Char) (prev nextc : Option Char)
    (lexeme : List Char) (in_comment : Bool) (end_comment : Option (List Char))
    (comments : List (List Char × List Char)) :
    Except LexErr (List Char × Bool × Option (List Char)) :=
  if comments.isEmpty then .error .emptyComments
  else if !(comments.all (fun p => allowed_pairs.contains p)) then
    .error .notImplemented
  else if comments.contains ("/*".toList, "*/".toList) then
    if char == '*' then
      if prev == some '/' then .ok (lexeme ++ "/*".toList, true, end_comment)
      else if nextc == some '/' then .ok (lexeme ++ "*/".toList, false, none)
      else .ok (lexeme ++ ['*'], in_comment, end_comment)
    else if char == '/' then
      if prev != some '*' && nextc != some '*' then
        .ok (lexeme ++ ['/'], in_comment, end_comment)
      else .ok (lexeme, in_comment, end_comment)
    else .ok (lexeme, in_comment, end_comment)
  else .ok (lexeme, in_comment, end_comment)

/-- Embedding of `lexer.lex_comment`. -/
def lex_comment (char : Char) (prev nextc : Option Char)
    (lexeme : List Char) (in_comment : Bool) (end_comment : Option (List Char))
    (comments : List (List Char × List Char)) (c_info : CInfo) :
    Except LexErr (List Char × Bool × Option (List Char)) :=
  if c_info.multi_chars.contains char then
    lex_multichar_comments char prev nextc lexeme in_comment end_comment comments
  else
    .ok (lex_singlechar_comments char lexeme in_comment end_comment
      c_info.single_comments)

/-- Embedding of `lexer.lex_char`: comments take priority; otherwise
non-whitespace characters are appended to the lexeme and whitespace is
dropped. -/
def lex_char (char : Char) (prev nextc : Option Char)
    (lexeme : List Char) (in_comment : Bool) (end_comment : Option (List Char))
    (g : Grammar) (c_info : CInfo) :
    Except LexErr (List Char × Bool × Option (List Char)) :=
  if in_comment || c_info.chars.contains char then
    lex_comment char prev nextc lexeme in_comment end_comment g.comments c_info
  else if !(g.whitespace.contains char) then
    .ok (lexeme ++ [char], in_comment, end_comment)
  else .ok (lexeme, in_comment, end_comment)

/-- Scanner state threaded through the `for` loop of `lexer.lexer`. -/
structure LexState where
  lexeme : List Char
  in_comment : Bool
  end_comment : Option (List Char)
deriving DecidableEq, Repr

/-- One iteration of the `for` loop of `lexer.lexer` at index `i`: update the
state with `lex_char`, then apply the yield decision.  The result pairs the
state for the next iteration with the token yielded at this index, if any
(the lexeme is reset to empty on yield, as the generator does on resuming). -/
def lexStep (g : Grammar) (ci : CInfo) (s : List Char) (i : Nat)
    (h : i < s.length) (st : LexState) :
    Except LexErr (LexState × Option (List Char)) :=
  let char := s.get ⟨i, h⟩
  let prev := prev_char s i
  let nextc := next_char s i
  match lex_char char prev nextc st.lexeme st.in_comment st.end_comment g ci with
  | .error e => .error e
  | .ok (lexeme, in_comment, end_comment) =>
    if lexeme.isEmpty then .ok (⟨lexeme, in_comment, end_comment⟩, none)
    else
      match nextc with
      | none => .ok (⟨[], in_comment, end_comment⟩, some lexeme)
      | some nc =>
        if in_comment || is_numeric g [char, nc] then
          .ok (⟨lexeme, in_comment, end_comment⟩, none)
        else if g.whitespace.contains nc
            || g.reserved_characters.contains nc
            || g.comments.any (fun p => p.1.isPrefixOf (s.drop (i + 1)))
            || g.comments.any (fun p => p.2.isSuffixOf lexeme)
            || g.reserved_characters.any (fun rc => lexeme == [rc]) then
          .ok (⟨[], in_comment, end_comment⟩, some lexeme)
        else .ok (⟨lexeme, in_comment, end_comment⟩, none)

/-- The whole `for` loop of `lexer.lexer` from index `i`, collecting every
yielded token in order.  This is the generator as observed by a consumer that
only pulls.  The fuel argument is the number of remaining loop iterations;
callers pass `s.length - i`. -/
def lexAll (g : Grammar) (ci : CInfo) (s : List Char) :
    Nat → Nat → LexState → Except LexErr (List (List Char))
  | 0, _, _ => .ok []
  | fuel + 1, i, st =>
    if h : i < s.length then
      match lexStep g ci s i h st with
      | .error e => .error e
      | .ok (st', some tok) =>
        (lexAll g ci s fuel (i + 1) st').map (fun ts => tok :: ts)
      | .ok (st', none) => lexAll g ci s fuel (i + 1) st'
    else .ok []

/-- Embedding of `lexer.lexer(s, g)` drained by a consumer that only pulls:
the list of all yielded tokens, or the error the scan raises. -/
def run_lexer (g : Grammar) (s : List Char) : Except LexErr (List (List Char)) :=
  lexAll g (prepare_comment_tuples g.comments) s s.length 0 ⟨[], false, none⟩

/-- Scan of `lexer.lexer` from index `i` up to its next yield: the yielded
token, the index after the yield position, and the state the generator holds
while suspended.  Fuel as in `lexAll`. -/
def scanNext (g : Grammar) (ci : CInfo) (s : List Char) :
    Nat → Nat → LexState → Except LexErr (Option (List Char × Nat × LexState))
  | 0, _, _ => .ok none
  | fuel + 1, i, st =>
    if h : i < s.length then
      match lexStep g ci s i h st with
      | .error e => .error e
      | .ok (st', some tok) => .ok (some (tok, i + 1, st'))
      | .ok (st', none) => scanNext g ci s fuel (i + 1) st'
    else .ok none

/-- Continuation of the suspended generator of `lexer.lexer`.  `awaitT` is
the suspension at `t = yield(Token(lexeme))` or `t = yield(t)` (awaiting the
value of the yield expression); `midPush t` is the suspension at the
`yield None` inside the push-back `while` loop, holding the pushed value. -/
inductive GenK where
  | awaitT
  | midPush (t : List Char)
deriving DecidableEq, Repr

/-- A `lexer.lexer` generator object: not yet started, suspended at a yield
with scan position `i` and scanner state `st`, or exhausted. -/
inductive Gen where
  | start
  | susp (i : Nat) (st : LexState) (k : GenK)
  | finished
deriving DecidableEq, Repr

/-- StopIteration when resuming an exhausted generator, and the TypeError
Python raises when `send` delivers a value to a generator that has not
started, are modelled as distinguished outcomes. -/
inductive GenOut where
  | yields (v : Option (List Char))
  | stopIteration
  | typeError
deriving DecidableEq, Repr

/-- Resume the generator of `lexer.lexer`: `v = none` is `next()`, and
`v = some t` is `send(t)`, which makes the yield expression the generator is
suspended at evaluate to `t`.  Returns the generator's answer (the value of
the next yield, or exhaustion) with the new generator state. -/
def genResume (g : Grammar) (ci : CInfo) (s : List Char) :
    Gen → Option (List Char) → Except LexErr (Gen × GenOut)
  | .start, none =>
    match scanNext g ci s s.length 0 ⟨[], false, none⟩ with
    | .error e => .error e
    | .ok none => .ok (.finished, .stopIteration)
    | .ok (some (tok, i', st')) => .ok (.susp i' st' .awaitT, .yields (some tok))
  | .start, some _ => .ok (.start, .typeError)
  | .susp i st .awaitT, none =>
    match scanNext g ci s (s.length - i) i st with
    | .error e => .error e
    | .ok none => .ok (.finished, .stopIteration)
    | .ok (some (tok, i', st')) => .ok (.susp i' st' .awaitT, .yields (some tok))
  | .susp i st .awaitT, some t => .ok (.susp i st (.midPush t), .yields none)
  | .susp i st (.midPush t), _ => .ok (.susp i st .awaitT, .yields (some t))
  | .finished, _ => .ok (.finished, .stopIteration)

/-- Python `str.count(sub, 0, stop)` for a single-character needle: the
number of occurrences of `c` in `doc[0:stop]`. -/
def py_count (doc : List Char) (c : Char) (stop : Nat) : Nat :=
  (doc.take stop).count c

/-- Highest index of `c` in the list, or `none`. -/
def lastIdxOf (c : Char) : List Char → Option Nat
  | [] => none
  | x :: xs =>
    match lastIdxOf c xs with
    | some k => some (k + 1)
    | none => if x == c then some 0 else none

/-- An index as an integer, `-1` standing for absence, as Python `rfind`
reports it. -/
def matchIdx : Option Nat → Int
  | some k => (k : Int)
  | none => -1

/-- Python `str.rfind(sub, 0, stop)` for a single-character needle: the
highest index below `stop` holding `c`, or `-1` when there is none. -/
def py_rfind (doc : List Char) (c : Char) (stop : Nat) : Int :=
  matchIdx (lastIdxOf c (doc.take stop))

/-- Embedding of `lexer.LexerError`: the unformatted message, the document,
the failing offset, and the line and column derived from them. -/
structure LexerError where
  msg : String
  doc : List Char
  pos : Nat
  lineno : Nat
  colno : Int
deriving DecidableEq, Repr

/-- Embedding of `LexerError.__init__`: the line number counts the newlines
before `pos` plus one, and the column number is `pos` minus the result of
`rfind`. -/
def mkLexerError (msg : String) (doc : List Char) (pos : Nat) : LexerError :=
  { msg := msg
    doc := doc
    pos := pos
    lineno := py_count doc '\n' pos + 1
    colno := (pos : Int) - py_rfind doc '\n' pos }

/-- Embedding of `LexerError.__reduce__` followed by reconstruction: the
error rebuilt from its `(msg, doc, pos)` triple alone. -/
def rebuildLexerError (e : LexerError) : LexerError :=
  mkLexerError e.msg e.doc e.pos

/-- Follows the spec's words for the non-decimal integer shape: an optional
sign, the radix, and one or more digits valid for that radix between the two
octothorpes. -/
def radix_spec_form (radix : List Char) (isDig : Char → Bool) (s : List Char) : Prop :=
  ∃ sgn d, (sgn = ([] : List Char) ∨ sgn = ['+'] ∨ sgn = ['-']) ∧ d ≠ [] ∧
    (∀ c ∈ d, isDig c = true) ∧ s = (sgn ++ radix) ++ '#' :: (d ++ ['#'])

/-- Follows the claim's words: a hexadecimal digit proper, i.e. `0`-`9`,
`A`-`F` or `a`-`f`. -/
def isTrueHexDigit (c : Char) : Bool :=
  grammar.isDecDigit c || ('A' ≤ c && c ≤ 'F') || ('a' ≤ c && c ≤ 'f')

/-- Membership in the base PVL grammar's white space. -/
def isSpaceChar (c : Char) : Bool := grammar.whitespace.contains c

/-- Follows the spec's words: splitting a string on whitespace and dropping
the whitespace, `cur` being the word accumulated so far. -/
def splitWS : List Char → List Char → List (List Char)
  | cur, [] => if cur.isEmpty then [] else [cur]
  | cur, c :: rest =>
    if isSpaceChar c then
      (if cur.isEmpty then splitWS [] rest else cur :: splitWS [] rest)
    else splitWS (cur ++ [c]) rest

/-- A character that is neither reserved in the base grammar nor part of a
comment delimiter of the base grammar. -/
def plainChar (c : Char) : Bool :=
  !(grammar.reserved_characters.contains c) && !(c == '/') && !(c == '*')

/-- A grammar configured with a multi-character comment pair other than the
`/* */` pair the lexer supports. -/
def bad_pair_grammar : Grammar :=
  { base_grammar with comments := [("<!".toList, "!>".toList)] }

/-- A grammar configured with an empty comment-pair table. -/
def empty_comments_grammar : Grammar :=
  { base_grammar with comments := [] }

/-- The base grammar extended with the single-character comment pair of the
Omni grammar (`('#', '\n')`), as in the repository's custom-comment test. -/
def omni_comments_grammar : Grammar :=
  { base_grammar with
    comments := [("/*".toList, "*/".toList), ("#".toList, "\n".toList)] }

/-! Helper lemmas. -/

theorem takeWhile_append_all {p : Char → Bool} :
    ∀ (l₁ l₂ : List Char), (∀ x ∈ l₁, p x = true) →
      (l₁ ++ l₂).takeWhile p = l₁ ++ l₂.takeWhile p := by
  intro l₁
  induction l₁ with
  | nil => intro l₂ _; simp
  | cons a l ih =>
    intro l₂ h
    have ha : p a = true := h a (List.mem_cons_self a l)
    simp only [List.cons_append, List.takeWhile_cons, ha, if_pos]
    rw [ih l₂ (fun x hx => h x (List.mem_cons_of_mem a hx))]

theorem takeWhile_append_stop {p : Char → Bool} :
    ∀ (l₁ l₂ : List Char), (∃ y ∈ l₁, p y = false) →
      (l₁ ++ l₂).takeWhile p = l₁.takeWhile p := by
  intro l₁
  induction l₁ with
  | nil => intro l₂ h; simp at h
  | cons a l ih =>
    intro l₂ h
    by_cases ha : p a = true
    · obtain ⟨y, hy, hpy⟩ := h
      have hyl : y ∈ l := by
        rcases List.mem_cons.mp hy with rfl | hyl
        · rw [ha] at hpy; cases hpy
        · exact hyl
      simp only [List.cons_append, List.takeWhile_cons, ha, if_pos]
      rw [ih l₂ ⟨y, hyl, hpy⟩]
    · have ha' : p a = false := by
        cases hpa : p a
        · rfl
        · exact absurd hpa ha
      simp [List.takeWhile_cons, ha']

theorem span_append {p : Char → Bool} :
    ∀ (d r : List Char), (∀ c ∈ d, p c = true) → r.takeWhile p = [] →
      (d ++ r).takeWhile p = d ∧ (d ++ r).dropWhile p = r := by
  intro d
  induction d with
  | nil =>
    intro r _ hr
    refine ⟨by simpa using hr, ?_⟩
    have h := List.takeWhile_append_dropWhile p r
    rw [hr] at h
    simpa using h
  | cons a d ih =>
    intro r h hr
    have ha : p a = true := h a (List.mem_cons_self a d)
    have ⟨h1, h2⟩ := ih r (fun c hc => h c (List.mem_cons_of_mem a hc)) hr
    constructor
    · simp [List.takeWhile_cons, ha, h1]
    · simp [List.dropWhile_cons, ha, h2]

theorem radix_fullmatch_iff (radix : List Char) (isDig : Char → Bool)
    (hne : radix ≠ []) (hD : isDig '#' = false)
    (hsign : ∀ x, radix.head? = some x → (x == '+') = false ∧ (x == '-') = false) :
    ∀ s, grammar.radix_fullmatch radix isDig s = true ↔ radix_spec_form radix isDig s := by
  intro s
  constructor
  · intro h
    simp only [grammar.radix_fullmatch] at h
    split at h
    swap
    · exact Bool.noConfusion h
    rename_i hpre
    obtain ⟨t0, ht0⟩ := List.isPrefixOf_iff_prefix.mp hpre
    rw [← ht0, List.drop_left] at h
    cases t0 with
    | nil => exact Bool.noConfusion h
    | cons x t =>
    have h' : (if (x == '#') = true then
        ((!(t.takeWhile isDig).isEmpty && (t.dropWhile isDig == ['#'])) : Bool)
      else false) = true := h
    cases hx : (x == '#') with
    | false =>
      rw [hx] at h'
      rw [if_neg Bool.false_ne_true] at h'
      exact Bool.noConfusion h'
    | true =>
    rw [hx, if_pos rfl, Bool.and_eq_true] at h'
    obtain ⟨hd0, hrest0⟩ := h'
    have hd : t.takeWhile isDig ≠ [] := by
      simp only [Bool.not_eq_true', List.isEmpty_eq_false] at hd0
      exact hd0
    have hrest : t.dropWhile isDig = ['#'] := beq_iff_eq.mp hrest0
    have hxe : x = '#' := beq_iff_eq.mp hx
    subst hxe
    have ht : t = t.takeWhile isDig ++ ['#'] := by
      conv_lhs => rw [← List.takeWhile_append_dropWhile isDig t]
      rw [hrest]
    have hdig : ∀ c ∈ t.takeWhile isDig, isDig c = true :=
      fun c hc => List.mem_takeWhile_imp hc
    cases s with
    | nil =>
      exfalso
      have h0 : radix ++ '#' :: t = ([] : List Char) := ht0
      exact hne (List.append_eq_nil.mp h0).1
    | cons c cs =>
      by_cases hc : (c == '+' || c == '-') = true
      · have hcs : grammar.dropSign (c :: cs) = cs := by
          simp only [grammar.dropSign, hc, if_true]
        rw [hcs] at ht0
        refine ⟨[c], t.takeWhile isDig, ?_, hd, hdig, ?_⟩
        · have hc' : c = '+' ∨ c = '-' := by simpa using hc
          rcases hc' with rfl | rfl
          · exact Or.inr (Or.inl rfl)
          · exact Or.inr (Or.inr rfl)
        · rw [← ht0, ← ht]
          simp
      · have hcs : grammar.dropSign (c :: cs) = c :: cs := by
          simp only [grammar.dropSign]
          rw [Bool.not_eq_true] at hc
          rw [hc]
          simp
        rw [hcs] at ht0
        refine ⟨[], t.takeWhile isDig, Or.inl rfl, hd, hdig, ?_⟩
        rw [← ht]
        rw [List.nil_append]
        exact ht0.symm
  · rintro ⟨sgn, d, hsgn, hd, hdig, rfl⟩
    have hdrop : grammar.dropSign (sgn ++ (radix ++ '#' :: (d ++ ['#']))) =
        radix ++ '#' :: (d ++ ['#']) := by
      rcases hsgn with rfl | rfl | rfl
      · cases radix with
        | nil => exact absurd rfl hne
        | cons x rads =>
          have hsx := hsign x rfl
          simp only [List.nil_append, List.cons_append, grammar.dropSign, hsx.1, hsx.2,
            Bool.or_self, Bool.false_eq_true, if_false]
      · simp [grammar.dropSign]
      · simp [grammar.dropSign]
    have hpre : radix.isPrefixOf (radix ++ '#' :: (d ++ ['#'])) = true :=
      List.isPrefixOf_iff_prefix.mpr (List.prefix_append _ _)
    have hspan := span_append d ['#'] hdig (by simp [List.takeWhile_cons, hD])
    rw [List.append_assoc]
    simp [grammar.radix_fullmatch, hdrop, hpre, List.drop_left, hspan.1, hspan.2,
      List.isEmpty_eq_false.mpr hd]

/-- Claim C6, counterexample: the hex pattern accepts the string `16#|#`,
whose only character between the octothorpes is the bar, which is not a
hexadecimal digit.  The character class `[0-9|A-F|a-f]` of `grammar.hex_re`
contains the bar as a literal class member. -/
theorem C6_counterexample :
    grammar.hex_re ("16#|#".toList) = true ∧ isTrueHexDigit '|' = false := by
  exact ⟨rfl, rfl⟩

/-- Claim C6, amended: the binary and octal patterns match exactly the
strings `[sign]radix#digits#` with digits `0`-`1` resp. `0`-`7`; the hex
pattern matches exactly that shape over the class written `[0-9|A-F|a-f]`,
which consists of the hexadecimal digits together with the literal bar
character, so strings with a bar between the octothorpes also match it. -/
theorem C6_amended :
    (∀ s, grammar.binary_re s = true ↔ radix_spec_form ['2'] grammar.isBinDigit s) ∧
    (∀ s, grammar.octal_re s = true ↔ radix_spec_form ['8'] grammar.isOctDigit s) ∧
    (∀ s, grammar.hex_re s = true ↔
      radix_spec_form ("16".toList) grammar.isHexClassChar s) := by
  refine ⟨?_, ?_, ?_⟩
  · exact radix_fullmatch_iff ['2'] grammar.isBinDigit (by decide) (by decide)
      (fun x hx => by
        have hx' : x = '2' := by
          have := hx
          simp at this
          exact this.symm
        subst hx'
        exact ⟨rfl, rfl⟩)
  · exact radix_fullmatch_iff ['8'] grammar.isOctDigit (by decide) (by decide)
      (fun x hx => by
        have hx' : x = '8' := by
          have := hx
          simp at this
          exact this.symm
        subst hx'
        exact ⟨rfl, rfl⟩)
  · exact radix_fullmatch_iff ("16".toList) grammar.isHexClassChar (by decide) (by decide)
      (fun x hx => by
        have hx' : x = '1' := by
          have := hx
          simp at this
          exact this.symm
        subst hx'
        exact ⟨rfl, rfl⟩)

/-- Claim C5, counterexample: the NUL character (code 0) is allowed by the
ODL grammar's `char_allowed` (it is ASCII) but rejected by the base PVL
grammar's `char_allowed` (the range 0x00-0x08 is excluded there), so the ODL
character set is not a restriction of the base PVL character set. -/
theorem C5_counterexample :
    ODLgrammar.char_allowed (Char.ofNat 0) = true ∧
    grammar.char_allowed (Char.ofNat 0) = false := by
  decide

/-- Claim C5, amended: `ODLgrammar.char_allowed c` is `true` exactly when `c`
is ASCII (code point at most 127), but this is not a further restriction of
the base character set: over the ASCII range the base grammar rejects exactly
the control codes 0x00-0x08, 0x0B, 0x0E-0x1F and 0x7F, all of which the ODL
grammar accepts. -/
theorem C5_amended :
    ∀ c : Char, ODLgrammar.char_allowed c = decide (c.toNat ≤ 127) ∧
      (c.toNat ≤ 127 →
        (ODLgrammar.char_allowed c = true ∧
          (grammar.char_allowed c = false ↔
            (c.toNat ≤ 8 ∨ c.toNat = 11 ∨ (14 ≤ c.toNat ∧ c.toNat ≤ 31) ∨
              c.toNat = 127)))) := by
  intro c
  refine ⟨rfl, fun h => ⟨by simp [ODLgrammar.char_allowed, h], ?_⟩⟩
  unfold grammar.char_allowed
  by_cases hP : (c.toNat > 255 ∨ (0 ≤ c.toNat ∧ c.toNat ≤ 8) ∨ c.toNat = 11 ∨
      (14 ≤ c.toNat ∧ c.toNat ≤ 31) ∨ (127 ≤ c.toNat ∧ c.toNat ≤ 159))
  · rw [if_pos hP]
    simp only [eq_self_iff_true, true_iff]
    omega
  · rw [if_neg hP]
    constructor
    · intro hts
      exact absurd hts (by simp)
    · intro hr
      exact absurd hr (by omega)

/-- Claim C5, witness: instantiation of the amended statement at the
character `a`. -/
theorem C5_amended_witness :
    ODLgrammar.char_allowed 'a' = true ∧
      (grammar.char_allowed 'a' = false ↔
        ('a'.toNat ≤ 8 ∨ 'a'.toNat = 11 ∨ (14 ≤ 'a'.toNat ∧ 'a'.toNat ≤ 31) ∨
          'a'.toNat = 127)) :=
  (C5_amended 'a').2 (by decide)

/-- Claim C4, counterexample: the unsupported-pair and empty-table checks do
not run at grammar or lexer construction.  A lexer whose grammar carries the
unsupported multi-character pair `<! !>` lexes the input `ab` to a token
without any error, and a lexer whose grammar has an empty comment table lexes
`a b` to two tokens without any error; so no fatal configuration error is
raised before tokens are produced, and whether an error occurs depends on the
input text. -/
theorem C4_counterexample :
    run_lexer bad_pair_grammar ("ab".toList) = .ok ["ab".toList] ∧
    run_lexer empty_comments_grammar ("a b".toList) =
      .ok ["a".toList, "b".toList] := by
  exact ⟨rfl, rfl⟩

/-- Claim C4, amended: the configuration checks live in
`lex_multichar_comments` and fire during scanning.  Called with an empty
comments table the function always raises the `ValueError`, and called with
a table containing the unsupported pair `<! !>` it always raises the
`NotImplementedError`; a lexer configured with that pair raises the error at
the first input character that belongs to a multi-character comment
delimiter (for example on input `<`), not at construction time. -/
theorem C4_amended :
    (∀ (char : Char) (prev nextc : Option Char) (lexeme : List Char)
        (ic : Bool) (ec : Option (List Char)),
      lex_multichar_comments char prev nextc lexeme ic ec [] =
        .error .emptyComments) ∧
    (∀ (char : Char) (prev nextc : Option Char) (lexeme : List Char)
        (ic : Bool) (ec : Option (List Char)),
      lex_multichar_comments char prev nextc lexeme ic ec
          [("<!".toList, "!>".toList)] = .error .notImplemented) ∧
    run_lexer bad_pair_grammar ("<".toList) = .error .notImplemented := by
  exact ⟨fun _ _ _ _ _ _ => rfl, fun _ _ _ _ _ _ => rfl, rfl⟩

/-- Claim C7: pushing a value back into the suspended lexer generator (the
generator's `send`) makes the very next pulled value be exactly that pushed
value, after which scanning resumes; concretely, on `One Two Three`, pulling
`One` and `Two`, sending `Two` back, pulling again yields `Two` once more and
then `Three`, and the stream then ends. -/
theorem C7_pushback :
    (∀ (g : Grammar) (ci : CInfo) (s : List Char) (i : Nat) (st : LexState)
        (t : List Char),
      genResume g ci s (.susp i st .awaitT) (some t) =
        .ok (.susp i st (.midPush t), .yields none) ∧
      genResume g ci s (.susp i st (.midPush t)) none =
        .ok (.susp i st .awaitT, .yields (some t))) ∧
    (genResume base_grammar (prepare_comment_tuples grammar.comments)
        ("One Two Three".toList) .start none =
      .ok (.susp 3 ⟨[], false, none⟩ .awaitT, .yields (some ("One".toList)))) ∧
    (genResume base_grammar (prepare_comment_tuples grammar.comments)
        ("One Two Three".toList) (.susp 3 ⟨[], false, none⟩ .awaitT) none =
      .ok (.susp 7 ⟨[], false, none⟩ .awaitT, .yields (some ("Two".toList)))) ∧
    (genResume base_grammar (prepare_comment_tuples grammar.comments)
        ("One Two Three".toList) (.susp 7 ⟨[], false, none⟩ .awaitT)
        (some ("Two".toList)) =
      .ok (.susp 7 ⟨[], false, none⟩ (.midPush ("Two".toList)), .yields none)) ∧
    (genResume base_grammar (prepare_comment_tuples grammar.comments)
        ("One Two Three".toList)
        (.susp 7 ⟨[], false, none⟩ (.midPush ("Two".toList))) none =
      .ok (.susp 7 ⟨[], false, none⟩ .awaitT, .yields (some ("Two".toList)))) ∧
    (genResume base_grammar (prepare_comment_tuples grammar.comments)
        ("One Two Three".toList) (.susp 7 ⟨[], false, none⟩ .awaitT) none =
      .ok (.susp 13 ⟨[], false, none⟩ .awaitT, .yields (some ("Three".toList)))) ∧
    (genResume base_grammar (prepare_comment_tuples grammar.comments)
        ("One Two Three".toList) (.susp 13 ⟨[], false, none⟩ .awaitT) none =
      .ok (.finished, .stopIteration)) := by
  exact ⟨fun _ _ _ _ _ _ => ⟨rfl, rfl⟩, rfl, rfl, rfl, rfl, rfl, rfl⟩

theorem lastIdxOf_eq_none (c : Char) :
    ∀ l : List Char, lastIdxOf c l = none ↔ c ∉ l := by
  intro l
  induction l with
  | nil => simp [lastIdxOf]
  | cons x xs ih =>
    cases h : lastIdxOf c xs with
    | some k =>
      have hm : c ∈ xs := by
        by_contra hn
        rw [(ih).mpr hn] at h
        exact Option.noConfusion h
      simp only [lastIdxOf, h]
      simp [hm]
    | none =>
      have hn : c ∉ xs := ih.mp h
      simp only [lastIdxOf, h]
      by_cases hx : (x == c) = true
      · have : x = c := beq_iff_eq.mp hx
        subst this
        simp [hx]
      · rw [Bool.not_eq_true] at hx
        rw [hx]
        simp only [Bool.false_eq_true, if_false]
        have hxc : x ≠ c := by
          intro hcc
          subst hcc
          simp at hx
        simp [hn, Ne.symm hxc]

theorem lastIdx_takeWhile (c : Char) :
    ∀ l : List Char,
      (l.length : Int) - matchIdx (lastIdxOf c l) =
        ((l.reverse.takeWhile (fun x => x != c)).length : Int) + 1 := by
  intro l
  induction l with
  | nil => simp [lastIdxOf, matchIdx]
  | cons x xs ih =>
    rw [List.reverse_cons]
    cases h : lastIdxOf c xs with
    | some k =>
      have hm : c ∈ xs := by
        by_contra hn
        rw [(lastIdxOf_eq_none c xs).mpr hn] at h
        exact Option.noConfusion h
      have hstop : (xs.reverse ++ [x]).takeWhile (fun y => y != c) =
          xs.reverse.takeWhile (fun y => y != c) := by
        refine takeWhile_append_stop _ _ ⟨c, List.mem_reverse.mpr hm, ?_⟩
        simp
      rw [h] at ih
      simp only [matchIdx] at ih
      simp only [lastIdxOf, h, matchIdx, hstop, List.length_cons]
      push_cast
      omega
    | none =>
      have hn : c ∉ xs := (lastIdxOf_eq_none c xs).mp h
      have hall : ∀ y ∈ xs.reverse, (y != c) = true := by
        intro y hy
        have : y ∈ xs := List.mem_reverse.mp hy
        exact bne_iff_ne.mpr (fun hyc => hn (hyc ▸ this))
      rw [takeWhile_append_all _ _ hall]
      by_cases hx : (x == c) = true
      · have hxe : x = c := beq_iff_eq.mp hx
        subst hxe
        simp only [lastIdxOf, h]
        rw [if_pos hx]
        simp only [matchIdx, List.takeWhile_cons, bne_self_eq_false,
          Bool.false_eq_true, if_false, List.length_cons, List.length_append,
          List.length_reverse, List.length_nil]
        push_cast
        omega
      · rw [Bool.not_eq_true] at hx
        simp only [lastIdxOf, h, hx, Bool.false_eq_true, if_false]
        have hxc : (x != c) = true := by
          simp only [bne_iff_ne]
          intro hcc
          subst hcc
          simp at hx
        simp only [matchIdx, List.takeWhile_cons, hxc, List.takeWhile_nil,
          List.length_cons, List.length_append, List.length_reverse,
          List.length_nil, if_pos]
        push_cast
        omega

/-- Claim C8: a `LexerError` built from a message, the document and the
failing offset derives its line number as the count of newline characters
strictly before the offset plus one, and its column number as the offset
minus the index of the preceding newline, which equals one plus the length of
the run of non-newline characters just before the offset; both are 1-based
(at least one), and rebuilding the error from `(msg, doc, pos)` alone, as
`__reduce__` prescribes, reproduces the identical error, message included. -/
theorem C8_lexer_error_position (msg : String) (doc : List Char) (pos : Nat)
    (hpos : pos ≤ doc.length) :
    (mkLexerError msg doc pos).lineno = (doc.take pos).count '\n' + 1 ∧
    (mkLexerError msg doc pos).colno =
      (((doc.take pos).reverse.takeWhile (fun x => x != '\n')).length : Int) + 1 ∧
    1 ≤ (mkLexerError msg doc pos).lineno ∧
    1 ≤ (mkLexerError msg doc pos).colno ∧
    rebuildLexerError (mkLexerError msg doc pos) = mkLexerError msg doc pos ∧
    (mkLexerError msg doc pos).msg = msg := by
  have hlen : ((doc.take pos).length : Int) = (pos : Int) := by
    rw [List.length_take]
    push_cast
    omega
  have hcol : (mkLexerError msg doc pos).colno =
      (((doc.take pos).reverse.takeWhile (fun x => x != '\n')).length : Int) + 1 := by
    show (pos : Int) - py_rfind doc '\n' pos = _
    unfold py_rfind
    rw [← hlen]
    exact lastIdx_takeWhile '\n' (doc.take pos)
  refine ⟨rfl, hcol, ?_, ?_, rfl, rfl⟩
  · exact Nat.le_add_left 1 _
  · rw [hcol]
    omega

/-- Claim C8, witness: the derived position of an error at offset 4 of the
document `ab\ncd` (line 2, column 2), with the rebuild round trip. -/
theorem C8_lexer_error_position_witness :
    (mkLexerError "t" ("ab\ncd".toList) 4).lineno =
      (("ab\ncd".toList).take 4).count '\n' + 1 ∧
    (mkLexerError "t" ("ab\ncd".toList) 4).colno =
      (((("ab\ncd".toList).take 4).reverse.takeWhile (fun x => x != '\n')).length : Int) + 1 ∧
    1 ≤ (mkLexerError "t" ("ab\ncd".toList) 4).lineno ∧
    1 ≤ (mkLexerError "t" ("ab\ncd".toList) 4).colno ∧
    rebuildLexerError (mkLexerError "t" ("ab\ncd".toList) 4) =
      mkLexerError "t" ("ab\ncd".toList) 4 ∧
    (mkLexerError "t" ("ab\ncd".toList) 4).msg = "t" :=
  C8_lexer_error_position "t" ("ab\ncd".toList) 4 (by decide)

/-- Claim C1: whenever, after processing the current character, the
accumulated lexeme is exactly one reserved character, the scan is not inside
a comment, and the two-character lookahead does not classify as numeric, the
lexer yields that reserved character as its own one-character token at this
very step, whatever the neighbouring characters are; concretely, `Te=st`
lexes to exactly `Te`, `=`, `st`. -/
theorem C1_reserved_char_token :
    (∀ (g : Grammar) (ci : CInfo) (s : List Char) (i : Nat) (h : i < s.length)
        (st : LexState) (ic : Bool) (ec : Option (List Char)) (r : Char),
      lex_char (s.get ⟨i, h⟩) (prev_char s i) (next_char s i)
          st.lexeme st.in_comment st.end_comment g ci = .ok ([r], ic, ec) →
      r ∈ g.reserved_characters →
      ic = false →
      (∀ nc, next_char s i = some nc → is_numeric g [s.get ⟨i, h⟩, nc] = false) →
      lexStep g ci s i h st = .ok (⟨[], ic, ec⟩, some [r])) ∧
    run_lexer base_grammar ("Te=st".toList) =
      .ok ["Te".toList, "=".toList, "st".toList] := by
  constructor
  · intro g ci s i h st ic ec r hlex hr hic hnum
    have hany : g.reserved_characters.any (fun rc => [r] == [rc]) = true := by
      rw [List.any_eq_true]
      exact ⟨r, hr, by simp⟩
    simp only [lexStep, hlex]
    simp only [List.isEmpty_cons, Bool.false_eq_true, if_false]
    cases hnc : next_char s i with
    | none => rfl
    | some nc =>
      simp only [hic, hnum nc hnc, Bool.or_self, Bool.false_eq_true, if_false,
        hany, Bool.or_true, if_true]
  · rfl

/-- Claim C1, witness: instantiation of the step property at index 2 of
`Te=st` (the `=` character). -/
theorem C1_reserved_char_token_witness :
    lexStep base_grammar (prepare_comment_tuples grammar.comments)
        ("Te=st".toList) 2 (by decide) ⟨[], false, none⟩ =
      .ok (⟨[], false, none⟩, some ['=']) :=
  C1_reserved_char_token.1 base_grammar (prepare_comment_tuples grammar.comments)
    ("Te=st".toList) 2 (by decide) ⟨[], false, none⟩ false none '=' rfl (by decide)
    rfl
    (fun nc hnc => by
      have hnc' : nc = 's' := by
        have : (some 's' : Option Char) = some nc := hnc.symm ▸ rfl
        exact (Option.some.inj this).symm
      subst hnc'
      decide)

/-- Claim C2: while the scan is inside a comment and the buffer has a next
character, the step never yields, so a comment is accumulated into a single
token; concretely (with both delimiters kept verbatim): the base grammar
lexes `There is a /* comment */` to four tokens whose last is the whole
comment, and `In/*the*/middle.` to three tokens; with the single-character
pair `('#', '\n')` the terminating newline is kept inside the comment token,
and a `#` comment unterminated at end of input is still one final token
holding everything from the opener to the end of the buffer. -/
theorem C2_comment_single_token :
    (∀ (g : Grammar) (ci : CInfo) (s : List Char) (i : Nat) (h : i < s.length)
        (st : LexState) (lx : List Char) (ec : Option (List Char)) (nc : Char),
      lex_char (s.get ⟨i, h⟩) (prev_char s i) (next_char s i)
          st.lexeme st.in_comment st.end_comment g ci = .ok (lx, true, ec) →
      lx ≠ [] →
      next_char s i = some nc →
      lexStep g ci s i h st = .ok (⟨lx, true, ec⟩, none)) ∧
    run_lexer base_grammar ("There is a /* comment */".toList) =
      .ok ["There".toList, "is".toList, "a".toList, "/* comment */".toList] ∧
    run_lexer base_grammar ("In/*the*/middle.".toList) =
      .ok ["In".toList, "/*the*/".toList, "middle.".toList] ∧
    run_lexer omni_comments_grammar ("# Leading \n then \n more".toList) =
      .ok ["# Leading \n".toList, "then".toList, "more".toList] ∧
    run_lexer omni_comments_grammar ("There is a # comment".toList) =
      .ok ["There".toList, "is".toList, "a".toList, "# comment".toList] := by
  refine ⟨?_, rfl, rfl, rfl, rfl⟩
  intro g ci s i h st lx ec nc hlex hlx hnc
  simp only [lexStep, hlex]
  simp only [List.isEmpty_eq_false.mpr hlx, Bool.false_eq_true, if_false, hnc,
    Bool.true_or, if_true]

/-- Claim C2, witness: instantiation of the mid-comment step property at
index 2 of `/*a*/` (the character `a` inside the comment). -/
theorem C2_comment_single_token_witness :
    lexStep base_grammar (prepare_comment_tuples grammar.comments)
        ("/*a*/".toList) 2 (by decide) ⟨"/*".toList, true, none⟩ =
      .ok (⟨"/*a".toList, true, none⟩, none) :=
  C2_comment_single_token.1 base_grammar (prepare_comment_tuples grammar.comments)
    ("/*a*/".toList) 2 (by decide) ⟨"/*".toList, true, none⟩ ("/*a".toList) none
    '*' rfl (by decide) rfl

/-- Claim C3: whenever the current character together with the next one
classifies as numeric under the grammar, the step keeps accumulating and
yields nothing, so a sign character directly followed by digits is never
split off; concretely, `Number: +79` lexes to exactly `Number:` and `+79`. -/
theorem C3_numeric_lookahead_no_split :
    (∀ (g : Grammar) (ci : CInfo) (s : List Char) (i : Nat) (h : i < s.length)
        (st : LexState) (lx : List Char) (ic : Bool) (ec : Option (List Char))
        (nc : Char),
      lex_char (s.get ⟨i, h⟩) (prev_char s i) (next_char s i)
          st.lexeme st.in_comment st.end_comment g ci = .ok (lx, ic, ec) →
      lx ≠ [] →
      next_char s i = some nc →
      is_numeric g [s.get ⟨i, h⟩, nc] = true →
      lexStep g ci s i h st = .ok (⟨lx, ic, ec⟩, none)) ∧
    run_lexer base_grammar ("Number: +79".toList) =
      .ok ["Number:".toList, "+79".toList] := by
  refine ⟨?_, rfl⟩
  intro g ci s i h st lx ic ec nc hlex hlx hnc hnum
  simp only [lexStep, hlex]
  simp only [List.isEmpty_eq_false.mpr hlx, Bool.false_eq_true, if_false, hnc,
    hnum, Bool.or_true, if_true]

/-- Claim C3, witness: instantiation of the numeric-lookahead step property
at index 8 of `Number: +79` (the sign character `+` followed by `7`). -/
theorem C3_numeric_lookahead_no_split_witness :
    lexStep base_grammar (prepare_comment_tuples grammar.comments)
        ("Number: +79".toList) 8 (by decide) ⟨[], false, none⟩ =
      .ok (⟨['+'], false, none⟩, none) :=
  C3_numeric_lookahead_no_split.1 base_grammar
    (prepare_comment_tuples grammar.comments) ("Number: +79".toList) 8
    (by decide) ⟨[], false, none⟩ ['+'] false none '7' rfl (by decide) rfl
    (by decide)

theorem lexStep_yield_ne_nil (g : Grammar) (ci : CInfo) (s : List Char)
    (i : Nat) (h : i < s.length) (st st' : LexState) (tok : List Char)
    (hstep : lexStep g ci s i h st = .ok (st', some tok)) : tok ≠ [] := by
  cases hlc : lex_char (s.get ⟨i, h⟩) (prev_char s i) (next_char s i)
      st.lexeme st.in_comment st.end_comment g ci with
  | error e =>
    simp only [lexStep, hlc] at hstep
    exact Except.noConfusion hstep
  | ok trip =>
    obtain ⟨lx, ic, ec⟩ := trip
    simp only [lexStep, hlc] at hstep
    by_cases hemp : lx.isEmpty = true
    · rw [if_pos hemp] at hstep
      simp at hstep
    · rw [if_neg hemp] at hstep
      have hlx : lx ≠ [] := by
        rw [Bool.not_eq_true] at hemp
        exact List.isEmpty_eq_false.mp hemp
      cases hnc : next_char s i with
      | none =>
        simp only [hnc] at hstep
        simp only [Except.ok.injEq, Prod.mk.injEq, Option.some.injEq] at hstep
        exact hstep.2 ▸ hlx
      | some nc =>
        simp only [hnc] at hstep
        split at hstep
        · simp at hstep
        split at hstep
        · simp only [Except.ok.injEq, Prod.mk.injEq, Option.some.injEq] at hstep
          exact hstep.2 ▸ hlx
        · simp at hstep

/-- Claim C10: every token the lexer's scan itself yields is a non-empty
string: for any grammar, comment tables, input, fuel, start index and start
state, every token in a successful run of the scan loop is non-empty, because
the loop only reaches a yield under the guard that the accumulated lexeme is
non-empty. -/
theorem C10_tokens_nonempty :
    ∀ (g : Grammar) (ci : CInfo) (s : List Char) (fuel i : Nat) (st : LexState)
      (tokens : List (List Char)),
      lexAll g ci s fuel i st = .ok tokens → ∀ t ∈ tokens, t ≠ [] := by
  intro g ci s fuel
  induction fuel with
  | zero =>
    intro i st tokens hall t ht
    simp only [lexAll] at hall
    injection hall with hall
    subst hall
    simp at ht
  | succ fuel ih =>
    intro i st tokens hall t ht
    simp only [lexAll] at hall
    by_cases hlt : i < s.length
    swap
    · rw [dif_neg hlt] at hall
      injection hall with hall
      subst hall
      simp at ht
    rw [dif_pos hlt] at hall
    cases hstep : lexStep g ci s i hlt st with
    | error e =>
      rw [hstep] at hall
      simp at hall
    | ok pair =>
      obtain ⟨st', otok⟩ := pair
      cases otok with
      | none =>
        simp only [hstep] at hall
        exact ih (i + 1) st' tokens hall t ht
      | some tok2 =>
        simp only [hstep] at hall
        cases hrec : lexAll g ci s fuel (i + 1) st' with
        | error e =>
          rw [hrec] at hall
          simp [Except.map] at hall
        | ok ts =>
          rw [hrec] at hall
          simp only [Except.map, Except.ok.injEq] at hall
          subst hall
          rcases List.mem_cons.mp ht with rfl | hts
          · exact lexStep_yield_ne_nil g ci s i hlt st st' t hstep
          · exact ih (i + 1) st' ts hrec t hts

/-- Claim C10, witness: the tokens of a concrete run are non-empty. -/
theorem C10_tokens_nonempty_witness : "ab".toList ≠ [] :=
  C10_tokens_nonempty base_grammar (prepare_comment_tuples grammar.comments)
    ("ab".toList) 2 0 ⟨[], false, none⟩ ["ab".toList] rfl ("ab".toList)
    (by simp)

theorem plainChar_spec (c : Char) (hc : plainChar c = true) :
    grammar.reserved_characters.contains c = false ∧ (c == '/') = false ∧
      (c == '*') = false := by
  simp only [plainChar, Bool.and_eq_true, Bool.not_eq_true'] at hc
  exact ⟨hc.1.1, hc.1.2, hc.2⟩

theorem plain_not_comment_char (c : Char) (hc : plainChar c = true) :
    (prepare_comment_tuples grammar.comments).chars.contains c = false := by
  obtain ⟨h1, h2, h3⟩ := plainChar_spec c hc
  show List.elem c ['/', '*', '*', '/'] = false
  simp [List.elem, h2, h3]

theorem sdec_two (c w : Char) (hd : grammar.isDecDigit w = false)
    (hdot : (w == '.') = false) (he : (w == 'e') = false)
    (hE : (w == 'E') = false) : is_signed_decimal [c, w] = false := by
  by_cases hsg : (c == '+' || c == '-') = true
  · simp [is_signed_decimal, grammar.dropSign, hsg, List.takeWhile_cons,
      List.dropWhile_cons, hd]
  · rw [Bool.not_eq_true] at hsg
    by_cases hdc : grammar.isDecDigit c = true
    · simp [is_signed_decimal, grammar.dropSign, hsg, List.takeWhile_cons,
        List.dropWhile_cons, hd, hdc, hdot, he, hE]
    · rw [Bool.not_eq_true] at hdc
      simp [is_signed_decimal, grammar.dropSign, hsg, List.takeWhile_cons,
        List.dropWhile_cons, hd, hdc]

theorem radix_fullmatch_length (radix : List Char) (isDig : Char → Bool)
    (s : List Char) (h : grammar.radix_fullmatch radix isDig s = true) :
    radix.length + 3 ≤ (grammar.dropSign s).length := by
  simp only [grammar.radix_fullmatch] at h
  split at h
  swap
  · exact Bool.noConfusion h
  rename_i hpre
  obtain ⟨t0, ht0⟩ := List.isPrefixOf_iff_prefix.mp hpre
  rw [← ht0, List.drop_left] at h
  cases t0 with
  | nil => exact Bool.noConfusion h
  | cons x t =>
    have h' : (if (x == '#') = true then
        ((!(t.takeWhile isDig).isEmpty && (t.dropWhile isDig == ['#'])) : Bool)
      else false) = true := h
    cases hx : (x == '#') with
    | false =>
      rw [hx, if_neg Bool.false_ne_true] at h'
      exact Bool.noConfusion h'
    | true =>
    rw [hx, if_pos rfl, Bool.and_eq_true] at h'
    obtain ⟨hd0, hrest0⟩ := h'
    have hd : t.takeWhile isDig ≠ [] := by
      simp only [Bool.not_eq_true', List.isEmpty_eq_false] at hd0
      exact hd0
    have hrest : t.dropWhile isDig = ['#'] := beq_iff_eq.mp hrest0
    have ht : t = t.takeWhile isDig ++ ['#'] := by
      conv_lhs => rw [← List.takeWhile_append_dropWhile isDig t]
      rw [hrest]
    have hlen : (grammar.dropSign s).length = radix.length + (1 + t.length) := by
      rw [← ht0]
      simp [List.length_append]
      omega
    have htl : t.length = (t.takeWhile isDig).length + 1 := by
      conv_lhs => rw [ht]
      simp
    have hpos : 1 ≤ (t.takeWhile isDig).length := List.length_pos.mpr hd
    omega

theorem nondecimal_two_false (c w : Char) :
    base_grammar.nondecimal_langs.any (fun f => f [c, w]) = false := by
  have hlen : (grammar.dropSign [c, w]).length ≤ 2 := by
    by_cases hsg : (c == '+' || c == '-') = true
    · simp [grammar.dropSign, hsg]
    · rw [Bool.not_eq_true] at hsg
      simp [grammar.dropSign, hsg]
  cases hq : base_grammar.nondecimal_langs.any (fun f => f [c, w]) with
  | false => rfl
  | true =>
    exfalso
    obtain ⟨f, hf, hfv⟩ := List.any_eq_true.mp hq
    have hcases : f = grammar.binary_re ∨ f = grammar.octal_re ∨
        f = grammar.hex_re := by
      simpa [base_grammar] using hf
    rcases hcases with rfl | rfl | rfl
    · have := radix_fullmatch_length ['2'] grammar.isBinDigit [c, w] hfv
      simp at this
      omega
    · have := radix_fullmatch_length ['8'] grammar.isOctDigit [c, w] hfv
      simp at this
      omega
    · have := radix_fullmatch_length ("16".toList) grammar.isHexClassChar [c, w] hfv
      simp at this
      omega

theorem numeric_two_not_ws (c w : Char)
    (h : is_numeric base_grammar [c, w] = true) : isSpaceChar w = false := by
  cases hws : isSpaceChar w with
  | false => rfl
  | true =>
    exfalso
    have hmem : w ∈ grammar.whitespace := by
      have hws' : List.elem w grammar.whitespace = true := hws
      exact List.elem_iff.mp hws'
    have hw : w = ' ' ∨ w = '\t' ∨ w = '\n' ∨ w = '\r' ∨ w = Char.ofNat 11 ∨
        w = Char.ofNat 12 := by
      simpa [grammar.whitespace, grammar.spacing_characters,
        grammar.format_effectors] using hmem
    rw [is_numeric, Bool.or_eq_true] at h
    rcases h with h | h
    · rcases hw with rfl | rfl | rfl | rfl | rfl | rfl <;>
        · rw [sdec_two c _ (by decide) (by decide) (by decide) (by decide)] at h
          exact Bool.noConfusion h
    · rw [nondecimal_two_false c w] at h
      exact Bool.noConfusion h

theorem drop_get_cons {α : Type} (l : List α) (n : Nat) (h : n < l.length) :
    l.drop n = l.get ⟨n, h⟩ :: l.drop (n + 1) :=
  List.drop_eq_getElem_cons h

theorem lexAll_splitWS (s : List Char) (hs : s.all plainChar = true) :
    ∀ (n i : Nat) (cur : List Char) (ec : Option (List Char)),
      s.length ≤ i + n →
      cur.all plainChar = true →
      (cur = [] ∨ ∃ h : i < s.length, isSpaceChar (s.get ⟨i, h⟩) = false) →
      lexAll base_grammar (prepare_comment_tuples grammar.comments) s n i
          ⟨cur, false, ec⟩ = .ok (splitWS cur (s.drop i)) := by
  intro n
  induction n with
  | zero =>
    intro i cur ec hlen hcur hinv
    have hcure : cur = [] := by
      rcases hinv with rfl | ⟨hlt, _⟩
      · rfl
      · omega
    subst hcure
    have hdrop : s.drop i = [] := List.drop_eq_nil_of_le (by omega)
    simp [lexAll, hdrop, splitWS]
  | succ n ih =>
    intro i cur ec hlen hcur hinv
    by_cases hlt : i < s.length
    swap
    · have hcure : cur = [] := by
        rcases hinv with rfl | ⟨hlt2, _⟩
        · rfl
        · omega
      subst hcure
      have hdrop : s.drop i = [] := List.drop_eq_nil_of_le (by omega)
      simp only [lexAll]
      rw [dif_neg hlt]
      simp [hdrop, splitWS]
    have hcmem : s.get ⟨i, hlt⟩ ∈ s := List.get_mem s i hlt
    have hcp : plainChar (s.get ⟨i, hlt⟩) = true := List.all_eq_true.mp hs _ hcmem
    obtain ⟨hcr, hcs1, hcs2⟩ := plainChar_spec _ hcp
    have hchars : (prepare_comment_tuples grammar.comments).chars.contains
        (s.get ⟨i, hlt⟩) = false := plain_not_comment_char _ hcp
    have hdropi : s.drop i = s.get ⟨i, hlt⟩ :: s.drop (i + 1) :=
      drop_get_cons s i hlt
    by_cases hws : isSpaceChar (s.get ⟨i, hlt⟩) = true
    · -- whitespace character: the lexeme must be empty, nothing happens
      have hcure : cur = [] := by
        rcases hinv with rfl | ⟨hlt2, hnw⟩
        · rfl
        · exact absurd (show isSpaceChar (s.get ⟨i, hlt2⟩) = true from hws)
            (by rw [hnw]; exact Bool.false_ne_true)
      subst hcure
      have hlex : lex_char (s.get ⟨i, hlt⟩) (prev_char s i) (next_char s i)
          [] false ec base_grammar (prepare_comment_tuples grammar.comments) =
          .ok ([], false, ec) := by
        have hwc : base_grammar.whitespace.contains (s.get ⟨i, hlt⟩) = true := hws
        simp only [lex_char, Bool.false_or, hchars, Bool.false_eq_true, if_false,
          hwc, Bool.not_true]
      have hws2 : isSpaceChar s[i] = true := hws
      simp only [lexAll]
      rw [dif_pos hlt]
      simp only [lexStep, hlex, List.isEmpty_nil, if_true]
      rw [ih (i + 1) [] ec (by omega) rfl (Or.inl rfl)]
      rw [hdropi]
      simp [splitWS, hws2]
    · -- ordinary character: appended to the lexeme
      have hwsf : base_grammar.whitespace.contains (s.get ⟨i, hlt⟩) = false := by
        rw [Bool.not_eq_true] at hws
        exact hws
      have hws2 : isSpaceChar s[i] = false := by
        rw [Bool.not_eq_true] at hws
        exact hws
      have hlex : lex_char (s.get ⟨i, hlt⟩) (prev_char s i) (next_char s i)
          cur false ec base_grammar (prepare_comment_tuples grammar.comments) =
          .ok (cur ++ [s.get ⟨i, hlt⟩], false, ec) := by
        simp only [lex_char, Bool.false_or, hchars, Bool.false_eq_true, if_false,
          hwsf, Bool.not_false, if_true]
      have hcur' : (cur ++ [s.get ⟨i, hlt⟩]).all plainChar = true := by
        rw [List.all_eq_true] at *
        intro x hx
        rcases List.mem_append.mp hx with hx | hx
        · exact hcur x hx
        · rw [List.mem_singleton.mp hx]
          exact hcp
      have hne : cur ++ [s.get ⟨i, hlt⟩] ≠ [] := by simp
      cases hnc : next_char s i with
      | none =>
        have hnc' : s.get? (i + 1) = none := hnc
        have hlen2 : s.length ≤ i + 1 := List.get?_eq_none.mp hnc'
        have hdrop1 : s.drop (i + 1) = [] := List.drop_eq_nil_of_le hlen2
        simp only [lexAll]
        rw [dif_pos hlt]
        simp only [lexStep, hlex]
        simp only [List.isEmpty_eq_false.mpr hne, Bool.false_eq_true, if_false,
          hnc]
        rw [ih (i + 1) [] ec (by omega) rfl (Or.inl rfl)]
        rw [hdropi, hdrop1]
        simp [splitWS, hws2, Except.map, List.isEmpty_eq_false.mpr hne]
      | some nc =>
        have hncmem : nc ∈ s := List.get?_mem hnc
        have hncp : plainChar nc = true := List.all_eq_true.mp hs nc hncmem
        obtain ⟨hncr, hncs1, hncs2⟩ := plainChar_spec nc hncp
        have hnc' : s.get? (i + 1) = some nc := hnc
        have hlt2 : i + 1 < s.length := by
          by_contra hx
          rw [List.get?_eq_none.mpr (by omega)] at hnc'
          exact Option.noConfusion hnc'
        have hget2 : s.get ⟨i + 1, hlt2⟩ = nc := by
          have h2 := hnc'
          rw [List.get?_eq_some] at h2
          obtain ⟨hb, hv⟩ := h2
          exact hv
        have hdropi1 : s.drop (i + 1) = nc :: s.drop (i + 2) := by
          rw [drop_get_cons s (i + 1) hlt2, hget2]
        by_cases hnum : is_numeric base_grammar [s.get ⟨i, hlt⟩, nc] = true
        · -- numeric lookahead: keep accumulating
          have hnw : isSpaceChar nc = false := numeric_two_not_ws _ nc hnum
          simp only [lexAll]
          rw [dif_pos hlt]
          simp only [lexStep, hlex]
          simp only [List.isEmpty_eq_false.mpr hne, Bool.false_eq_true, if_false,
            hnc, hnum, Bool.or_true, if_true]
          rw [ih (i + 1) (cur ++ [s.get ⟨i, hlt⟩]) ec (by omega) hcur'
            (Or.inr ⟨hlt2, by rw [hget2]; exact hnw⟩)]
          rw [hdropi]
          simp [splitWS, hws2]
        · -- not numeric: the boundary decision is driven by whitespace alone
          have hnumf : is_numeric base_grammar [s.get ⟨i, hlt⟩, nc] = false := by
            rw [Bool.not_eq_true] at hnum
            exact hnum
          have hpf : ((['/', '*'] : List Char).isPrefixOf (nc :: s.drop (i + 2))) = false := by
            cases hq : ((['/', '*'] : List Char).isPrefixOf (nc :: s.drop (i + 2))) with
            | false => rfl
            | true =>
              exfalso
              obtain ⟨t2, ht2⟩ := List.isPrefixOf_iff_prefix.mp hq
              have hh : '/' = nc := by
                have := congrArg List.head? ht2
                simpa using this
              rw [← hh] at hncs1
              simp at hncs1
          have hpref : base_grammar.comments.any
              (fun p => p.1.isPrefixOf (s.drop (i + 1))) = false := by
            show (grammar.comments.any fun p => p.1.isPrefixOf (s.drop (i + 1))) = false
            rw [hdropi1]
            simp [grammar.comments, hpf]
          have hsuf : base_grammar.comments.any
              (fun p => p.2.isSuffixOf (cur ++ [s.get ⟨i, hlt⟩])) = false := by
            show (grammar.comments.any
              fun p => p.2.isSuffixOf (cur ++ [s.get ⟨i, hlt⟩])) = false
            cases hq : ((['*', '/'] : List Char).isSuffixOf (cur ++ [s.get ⟨i, hlt⟩])) with
            | false => simpa [grammar.comments] using hq
            | true =>
              exfalso
              have hsub := List.IsSuffix.subset (List.isSuffixOf_iff_suffix.mp hq)
              have hstar : '*' ∈ cur ++ [s.get ⟨i, hlt⟩] := hsub (by simp)
              have := List.all_eq_true.mp hcur' '*' hstar
              exact absurd this (by decide)
          have hsing : base_grammar.reserved_characters.any
              (fun rc => (cur ++ [s.get ⟨i, hlt⟩]) == [rc]) = false := by
            cases hq : (base_grammar.reserved_characters.any
                (fun rc => (cur ++ [s.get ⟨i, hlt⟩]) == [rc])) with
            | false => rfl
            | true =>
              exfalso
              obtain ⟨rc, hrcmem, hbeq⟩ := List.any_eq_true.mp hq
              have heq := beq_iff_eq.mp hbeq
              cases cur with
              | nil =>
                have hceq : s.get ⟨i, hlt⟩ = rc := by simpa using heq
                have hcontains : grammar.reserved_characters.contains
                    (s.get ⟨i, hlt⟩) = true := by
                  show List.elem (s.get ⟨i, hlt⟩) grammar.reserved_characters = true
                  rw [List.elem_iff]
                  rw [hceq]
                  exact hrcmem
                rw [hcontains] at hcr
                exact Bool.noConfusion hcr
              | cons a as =>
                have := congrArg List.length heq
                simp only [List.length_append, List.length_cons,
                  List.length_singleton, List.length_nil] at this
                omega
          cases hwnc : isSpaceChar nc with
          | true =>
            -- next char is whitespace: yield the word here
            have hwnc' : base_grammar.whitespace.contains nc = true := hwnc
            simp only [lexAll]
            rw [dif_pos hlt]
            simp only [lexStep, hlex]
            simp only [List.isEmpty_eq_false.mpr hne, Bool.false_eq_true,
              if_false, hnc, hnumf, Bool.or_self, hwnc', Bool.true_or, if_true]
            rw [ih (i + 1) [] ec (by omega) rfl (Or.inl rfl)]
            rw [hdropi, hdropi1]
            simp [splitWS, hws2, hwnc, Except.map, List.isEmpty_eq_false.mpr hne]
          | false =>
            -- no boundary: keep accumulating
            have hwnc' : base_grammar.whitespace.contains nc = false := hwnc
            have hres' : base_grammar.reserved_characters.contains nc = false := hncr
            simp only [lexAll]
            rw [dif_pos hlt]
            simp only [lexStep, hlex]
            simp only [List.isEmpty_eq_false.mpr hne, Bool.false_eq_true,
              if_false, hnc, hnumf, Bool.or_self, hwnc', hres', hpref, hsuf,
              hsing, Bool.or_false, if_false]
            rw [ih (i + 1) (cur ++ [s.get ⟨i, hlt⟩]) ec (by omega) hcur'
              (Or.inr ⟨hlt2, by rw [hget2]; exact hwnc⟩)]
            rw [hdropi]
            simp [splitWS, hws2]

theorem splitWS_no_ws :
    ∀ (rest cur : List Char), (∀ c ∈ cur, isSpaceChar c = false) →
      ∀ w ∈ splitWS cur rest, w ≠ [] ∧ ∀ c ∈ w, isSpaceChar c = false := by
  intro rest
  induction rest with
  | nil =>
    intro cur hcur w hw
    simp only [splitWS] at hw
    by_cases hce : cur.isEmpty = true
    · rw [if_pos hce] at hw
      simp at hw
    · rw [if_neg hce] at hw
      have hne : cur ≠ [] := by
        rw [Bool.not_eq_true] at hce
        exact List.isEmpty_eq_false.mp hce
      rw [List.mem_singleton.mp hw]
      exact ⟨hne, hcur⟩
  | cons c rest ih =>
    intro cur hcur w hw
    simp only [splitWS] at hw
    by_cases hc : isSpaceChar c = true
    · rw [if_pos hc] at hw
      by_cases hce : cur.isEmpty = true
      · rw [if_pos hce] at hw
        exact ih [] (by simp) w hw
      · rw [if_neg hce] at hw
        have hne : cur ≠ [] := by
          rw [Bool.not_eq_true] at hce
          exact List.isEmpty_eq_false.mp hce
        rcases List.mem_cons.mp hw with rfl | hw2
        · exact ⟨hne, hcur⟩
        · exact ih [] (by simp) w hw2
    · rw [if_neg hc] at hw
      refine ih (cur ++ [c]) ?_ w hw
      intro x hx
      rcases List.mem_append.mp hx with hx | hx
      · exact hcur x hx
      · rw [List.mem_singleton.mp hx]
        rw [Bool.not_eq_true] at hc
        exact hc

/-- Claim C9: on input whose characters are all plain (no reserved character
and no character of a comment delimiter of the base grammar), the lexer
yields exactly the substrings obtained by splitting the input on whitespace;
every such yielded token is non-empty and contains no whitespace character,
so whitespace is dropped and never appears inside a token; concretely,
`This is a test.` lexes to exactly `This`, `is`, `a`, `test.`. -/
theorem C9_whitespace_split :
    (∀ s : List Char, s.all plainChar = true →
      run_lexer base_grammar s = .ok (splitWS [] s)) ∧
    (∀ s : List Char, ∀ w ∈ splitWS [] s,
      w ≠ [] ∧ ∀ c ∈ w, isSpaceChar c = false) ∧
    run_lexer base_grammar ("This is a test.".toList) =
      .ok ["This".toList, "is".toList, "a".toList, "test.".toList] := by
  refine ⟨?_, ?_, rfl⟩
  · intro s hs
    have h := lexAll_splitWS s hs s.length 0 [] none (by omega) rfl (Or.inl rfl)
    simpa [run_lexer] using h
  · intro s w hw
    exact splitWS_no_ws s [] (by simp) w hw

/-- Claim C9, witness: the whitespace-splitting theorem applied to the
concrete input `This is a test.` and its first token. -/
theorem C9_whitespace_split_witness :
    run_lexer base_grammar ("This is a test.".toList) =
        .ok (splitWS [] ("This is a test.".toList)) ∧
      ("This".toList ≠ [] ∧ ∀ c ∈ "This".toList, isSpaceChar c = false) :=
  ⟨C9_whitespace_split.1 ("This is a test.".toList) (by decide),
    C9_whitespace_split.2.1 ("This is a test.".toList) ("This".toList)
      (by decide)⟩
